import Mathlib

/-!
Verification development for the flight-route similarity recommender
(backend/server.py `get_similar_routes`, `get_direct_routes`, and the
TF-IDF embedding pipeline shared with backend/data_ingestion.py).

The combinatorial layer (character n-gram analysis, vocabulary building,
term/document frequencies, top-k index selection, record assembly) is
embedded as computable functions on `String`/`List`.  The numeric layer
(inverse document frequency, L2 normalisation, cosine similarity) is
embedded over `ℝ`: the Python code computes with IEEE doubles, which we
model by exact real arithmetic.
-/

namespace FlightRec

/-! ### Numeric primitives (numpy dot products, sklearn cosine_similarity) -/

/-- Dot product of two vectors given as lists (`np.dot` on equal-length
vectors; on ragged input we truncate to the shorter length, a case the
Python code never reaches because all rows live in one fitted space). -/
def dotList (u v : List ℝ) : ℝ := (List.zipWith (fun a b => a * b) u v).sum

/-- Euclidean norm, `np.linalg.norm`. -/
noncomputable def l2norm (v : List ℝ) : ℝ := Real.sqrt (dotList v v)

open Classical in
/-- sklearn `normalize(..., norm="l2")`: rows are divided by their norm,
except that zero rows are left unchanged (sklearn substitutes norm 1). -/
noncomputable def l2normalize (v : List ℝ) : List ℝ :=
  if l2norm v = 0 then v else v.map (fun x => x / l2norm v)

/-- sklearn `cosine_similarity` of two single vectors: it normalises both
sides and takes the dot product, so a zero vector yields similarity 0. -/
noncomputable def cosine_sim (q r : List ℝ) : ℝ :=
  dotList (l2normalize q) (l2normalize r)

/-- `cosine_similarity(query_vector, embeddings_matrix)[0]`: one score per
stored row, in row order.  This is the Similarity Index's `score_all`. -/
noncomputable def score_all (q : List ℝ) (rows : List (List ℝ)) : List ℝ :=
  rows.map (cosine_sim q)

/-! ### Python string casing (`str.upper` / `str.lower` on ASCII codes) -/

/-- Python `str.lower()` restricted to the ASCII range, which is all the
code ever feeds it (IATA codes and `"-"`). -/
def pyLower (s : String) : String := String.mk (s.data.map Char.toLower)

/-- Python `str.upper()` restricted to the ASCII range. -/
def pyUpper (s : String) : String := String.mk (s.data.map Char.toUpper)

/-! ### The char_wb analyzer of `TfidfVectorizer(analyzer="char_wb", ngram_range=(2,5))` -/

/-- Helper for `splitWords`: accumulates the current word (reversed). -/
def wordsAux : List Char → List Char → List (List Char)
  | [], acc => if acc.isEmpty then [] else [acc.reverse]
  | c :: cs, acc =>
    if c.isWhitespace then
      (if acc.isEmpty then wordsAux cs [] else acc.reverse :: wordsAux cs [])
    else wordsAux cs (c :: acc)

/-- Python `str.split()`: maximal runs of non-whitespace characters. -/
def splitWords (l : List Char) : List (List Char) := wordsAux l []

/-- All contiguous n-grams of length `n` starting at offsets `0..len-n`. -/
def ngramsAt (w : List Char) (n : ℕ) : List (List Char) :=
  (List.range (w.length - n + 1)).map (fun i => (w.drop i).take n)

/-- The n-gram lengths `2..5` for which the padded word is strictly longer
than the n-gram (sklearn's inner loop runs a full sliding window there). -/
def nsSliding (len : ℕ) : List ℕ :=
  ((List.range 4).map (fun j => j + 2)).filter (fun n => n < len)

/-- sklearn `_char_wb_ngrams` on one word: pad with one space on each side,
then for n = 2..5 take all sliding n-grams while n is below the padded
length; the first n that reaches the padded length emits the whole padded
word once and breaks out of the loop. -/
def charWbWord (w : List Char) : List String :=
  let p := ' ' :: (w ++ [' '])
  (((nsSliding p.length).map (fun n => ngramsAt p n)).flatten
      ++ (if p.length ≤ 5 then [p] else [])).map String.mk

/-- The full analyzer: lowercase (the vectorizer's default preprocessing),
split on whitespace, and emit char_wb n-grams per word. -/
def analyze (doc : String) : List String :=
  ((splitWords (pyLower doc).data).map charWbWord).flatten

/-! ### Vocabulary building and feature selection (`max_features=128`) -/

/-- Stable insertion step: `x` goes in front of the first `y` with `le x y`. -/
def insertLe {α : Type} (le : α → α → Bool) (x : α) : List α → List α
  | [] => [x]
  | y :: ys => if le x y then x :: y :: ys else y :: insertLe le x ys

/-- Stable insertion sort (ascending with respect to `le`). -/
def isortBy {α : Type} (le : α → α → Bool) (l : List α) : List α :=
  l.foldr (insertLe le) []

/-- Lexicographic comparison of two character lists by code point, the
order Python's `sorted` uses on strings. -/
def charListLe : List Char → List Char → Bool
  | [], _ => true
  | _ :: _, [] => false
  | a :: as, b :: bs =>
    if a.toNat < b.toNat then true
    else if b.toNat < a.toNat then false
    else charListLe as bs

/-- Lexicographic comparison on strings as a Bool. -/
def strLeB (a b : String) : Bool := charListLe a.data b.data

/-- Corpus-wide term frequency of a feature (column sum of the count
matrix, used by sklearn `_limit_features`). -/
def total_tf (docs : List String) (f : String) : ℕ :=
  (docs.map (fun d => (analyze d).count f)).sum

/-- Document frequency of a feature: in how many documents it occurs. -/
def doc_freq (docs : List String) (f : String) : ℕ :=
  (docs.filter (fun d => (analyze d).contains f)).length

/-- The distinct n-grams of the corpus in lexicographic order (sklearn
`_sort_features`, run before pruning when `max_features` is set). -/
def raw_vocab (docs : List String) : List String :=
  isortBy strLeB ((docs.map analyze).flatten.dedup)

/-- The `max_features=128` cap passed to both vectorizer constructions. -/
def max_features : ℕ := 128

/-- sklearn `_limit_features` computes the column-sum frequency array
once (`tfs = X.sum(axis=0)`) and argsorts its negation: modelled by
pairing every sorted-vocabulary feature with its corpus-wide frequency
and stable-sorting the pairs by descending frequency.  For ties among
equal frequencies numpy's introsort order is implementation-defined
(stable only below its 16-element insertion-sort cutoff); the model
fixes the stable order, i.e. ties by position in the alphabetically
sorted vocabulary — see the C8 theorems, which treat exactly this. -/
def kept_features (docs : List String) : List String :=
  ((isortBy (fun a b => decide (b.2 ≤ a.2))
      ((raw_vocab docs).map (fun f => (f, total_tf docs f)))).take max_features).map
    (fun p => p.1)

def select_vocab (docs : List String) : List String :=
  if (raw_vocab docs).length ≤ max_features then raw_vocab docs
  else (raw_vocab docs).filter (fun f => (kept_features docs).contains f)

/-- The fitted space: ordered vocabulary, corpus size and document
frequencies — everything `TfidfVectorizer.transform` needs. -/
structure TfidfSpace where
  vocab : List String
  ndocs : ℕ
  df : String → ℕ

/-- `TfidfVectorizer.fit` over a corpus. -/
def tfidf_fit (docs : List String) : TfidfSpace :=
  ⟨select_vocab docs, docs.length, doc_freq docs⟩

/-- Smoothed inverse document frequency (`smooth_idf=True`, the default):
`ln((1 + n) / (1 + df)) + 1`. -/
noncomputable def idf (n d : ℕ) : ℝ :=
  Real.log ((1 + (n : ℝ)) / (1 + (d : ℝ))) + 1

/-- The unnormalised TF-IDF row of a document: term count times IDF per
vocabulary feature, in vocabulary order. -/
noncomputable def transform_raw (sp : TfidfSpace) (doc : String) : List ℝ :=
  sp.vocab.map (fun f => ((analyze doc).count f : ℝ) * idf sp.ndocs (sp.df f))

/-- `TfidfVectorizer.transform` of one document (`norm="l2"` default). -/
noncomputable def tfidf_transform (sp : TfidfSpace) (doc : String) : List ℝ :=
  l2normalize (transform_raw sp doc)

/-- `TfidfVectorizer.fit_transform`: the fingerprint matrix of a corpus,
one row per document.  This is what `ingest_routes_with_embeddings`
pickles per route. -/
noncomputable def fit_transform (docs : List String) : List (List ℝ) :=
  docs.map (tfidf_transform (tfidf_fit docs))

/-! ### Stored records and the recommendation endpoint -/

/-- A stored route document as `get_similar_routes` fetches it: the query
filters on the presence of the `embedding` field, and `embedding = none`
models a stored blob that `pickle.loads` (or a missing metadata key inside
the `try` block) fails on. -/
structure StoredRoute where
  route_text : String
  source : String
  dest : String
  airline : Option String
  embedding : Option (List ℝ)

/-- The metadata dict built per readable record inside the loop:
`{route_text, source, dest, airline}` with `airline` defaulted via
`route.get("airline", "Unknown")`. -/
structure RouteInfo where
  route_text : String
  source : String
  dest : String
  airline : String

instance : Inhabited RouteInfo := ⟨⟨"", "", "", ""⟩⟩

/-- One emitted recommendation: the metadata keys plus `similarity`, and
nothing else (in particular no fingerprint bytes). -/
structure ResultRec where
  route_text : String
  source : String
  dest : String
  airline : String
  similarity : ℝ

/-- The only error the endpoint raises itself: `HTTPException(404, ...)`. -/
inductive ApiError where
  | notFound : String → ApiError

/-- The metadata extraction for one readable record. -/
def mkInfo (r : StoredRoute) : RouteInfo :=
  ⟨r.route_text, r.source, r.dest, r.airline.getD "Unknown"⟩

/-- The extraction loop: records whose fingerprint deserialises are kept
(metadata paired with the vector, in corpus order); malformed ones are
skipped by the bare `except: continue`. -/
def readableRoutes (rs : List StoredRoute) : List (RouteInfo × List ℝ) :=
  rs.filterMap (fun r => r.embedding.map (fun e => (mkInfo r, e)))

open Classical in
/-- Comparison of two scores by index, as numpy's ascending argsort keys. -/
noncomputable def simLeB (s : List ℝ) (i j : ℕ) : Bool :=
  decide (s.getD i 0 ≤ s.getD j 0)

/-- `similarities.argsort()`: the indices `0..n-1` sorted by ascending
score, modelled as a stable insertion sort.  numpy's default sort IS an
insertion sort — hence stable — for arrays of at most 16 elements, which
covers every concrete corpus below; for larger arrays numpy's introsort
is deterministic but its tie order is implementation-defined, so the
theorems below state tie-order conclusions only for scored corpora of at
most 16 rows (score-sortedness, top-k membership and lengths do not
depend on tie order and hold for any correct ascending sort). -/
noncomputable def argsortAsc (s : List ℝ) : List ℕ :=
  (List.range s.length).foldr (insertLe (simLeB s)) []

/-- `similarities.argsort()[-top_k:][::-1]` for `top_k ≥ 1`: the last
`min top_k n` entries of the ascending argsort, reversed. -/
noncomputable def topKIndices (s : List ℝ) (k : ℕ) : List ℕ :=
  ((argsortAsc s).drop ((argsortAsc s).length - k)).reverse

/-- The similarity scores `get_similar_routes` computes: refit the space
over the readable corpus texts, encode the query `f"{src}-{dst}"`
(uppercased), and score it against every stored fingerprint row. -/
noncomputable def similarity_scores (source destination : String)
    (rs : List StoredRoute) : List ℝ :=
  let route_text := pyUpper source ++ "-" ++ pyUpper destination
  let infos := readableRoutes rs
  let sp := tfidf_fit (infos.map (fun p => p.1.route_text))
  score_all (tfidf_transform sp route_text) (infos.map (fun p => p.2))

/-- The result dict built for one selected index: the metadata of row `i`
spread into a fresh dict together with `float(similarities[i])`. -/
def resultAt (infos : List (RouteInfo × List ℝ)) (sims : List ℝ) (i : ℕ) : ResultRec :=
  ⟨(infos.getD i default).1.route_text, (infos.getD i default).1.source,
    (infos.getD i default).1.dest, (infos.getD i default).1.airline, sims.getD i 0⟩

/-- `get_similar_routes`: 404 when no stored route has an embedding field;
404 when none of them deserialises; otherwise emit the top-k records with
their scores. -/
noncomputable def get_similar_routes (source destination : String) (top_k : ℕ)
    (all_routes : List StoredRoute) : Except ApiError (List ResultRec) :=
  if all_routes.isEmpty then .error (.notFound "No routes with embeddings found")
  else if (readableRoutes all_routes).isEmpty then
    .error (.notFound "No valid embeddings found")
  else
    .ok ((topKIndices (similarity_scores source destination all_routes) top_k).map
      (resultAt (readableRoutes all_routes)
        (similarity_scores source destination all_routes)))

/-- All stored routes whose `source` and `dest` fields equal the
uppercased query codes — the full match set of the Mongo query in
`get_direct_routes`. -/
def matching_routes (source destination : String) (db : List StoredRoute) :
    List StoredRoute :=
  db.filter (fun r => r.source == pyUpper source && r.dest == pyUpper destination)

/-- `get_direct_routes`: the same equality query, but materialised with
`to_list(length=100)`, which stops after the first 100 matches. -/
def get_direct_routes (source destination : String) (db : List StoredRoute) :
    List StoredRoute :=
  (db.filter (fun r => r.source == pyUpper source && r.dest == pyUpper destination)).take 100

/-! ### Basic facts about dot products and norms -/

theorem dotList_nil_left (v : List ℝ) : dotList [] v = 0 := rfl

theorem dotList_nil_right (u : List ℝ) : dotList u [] = 0 := by
  cases u <;> rfl

theorem dotList_cons (a b : ℝ) (u v : List ℝ) :
    dotList (a :: u) (b :: v) = a * b + dotList u v := rfl

theorem dotList_self_nonneg (v : List ℝ) : 0 ≤ dotList v v := by
  induction v with
  | nil => simp [dotList]
  | cons a u ih =>
    rw [dotList_cons]
    have := mul_self_nonneg a
    linarith

theorem dotList_self_eq_zero_iff (v : List ℝ) :
    dotList v v = 0 ↔ ∀ x ∈ v, x = 0 := by
  induction v with
  | nil => simp [dotList]
  | cons a u ih =>
    rw [dotList_cons]
    constructor
    · intro h
      have ha : a * a = 0 := by nlinarith [dotList_self_nonneg u, mul_self_nonneg a]
      have hu : dotList u u = 0 := by nlinarith [dotList_self_nonneg u, mul_self_nonneg a]
      have ha0 : a = 0 := by nlinarith
      intro x hx
      rcases List.mem_cons.mp hx with h1 | h2
      · simpa [h1] using ha0
      · exact (ih.mp hu) x h2
    · intro h
      have ha : a = 0 := h a (List.mem_cons_self a u)
      have hu : dotList u u = 0 := ih.mpr (fun x hx => h x (List.mem_cons_of_mem a hx))
      simp [ha, hu]

theorem dotList_zero_right (u v : List ℝ) (h : ∀ x ∈ v, x = 0) : dotList u v = 0 := by
  induction v generalizing u with
  | nil => exact dotList_nil_right u
  | cons b w ih =>
    cases u with
    | nil => rfl
    | cons a u1 =>
      rw [dotList_cons]
      have hb : b = 0 := h b (List.mem_cons_self b w)
      have := ih u1 (fun x hx => h x (List.mem_cons_of_mem b hx))
      simp [hb, this]

theorem dotList_nonneg (u v : List ℝ) (hu : ∀ x ∈ u, 0 ≤ x) (hv : ∀ x ∈ v, 0 ≤ x) :
    0 ≤ dotList u v := by
  induction u generalizing v with
  | nil => simp [dotList]
  | cons a u1 ih =>
    cases v with
    | nil => simp [dotList]
    | cons b v1 =>
      rw [dotList_cons]
      have ha : 0 ≤ a := hu a (List.mem_cons_self a u1)
      have hb : 0 ≤ b := hv b (List.mem_cons_self b v1)
      have hrec := ih v1 (fun x hx => hu x (List.mem_cons_of_mem a hx))
        (fun x hx => hv x (List.mem_cons_of_mem b hx))
      have := mul_nonneg ha hb
      linarith

/-- The dot product as a `Finset.range` sum of padded coordinates: any
bound at least the shorter length works, because `getD` pads with 0. -/
theorem dotList_eq_sum (u v : List ℝ) (n : ℕ) (h : min u.length v.length ≤ n) :
    dotList u v = ∑ i ∈ Finset.range n, u.getD i 0 * v.getD i 0 := by
  induction u generalizing v n with
  | nil =>
    simp only [dotList_nil_left]
    refine (Finset.sum_eq_zero ?_).symm
    intro i _
    simp [List.getD]
  | cons a u1 ih =>
    cases v with
    | nil =>
      rw [dotList_nil_right]
      refine (Finset.sum_eq_zero ?_).symm
      intro i _
      simp [List.getD]
    | cons b v1 =>
      cases n with
      | zero => simp at h
      | succ m =>
        rw [dotList_cons, Finset.sum_range_succ']
        have hm : min u1.length v1.length ≤ m := by
          simp only [List.length_cons] at h
          omega
        rw [ih v1 m hm]
        simp [List.getD]
        ring

theorem dotList_zero_left (u v : List ℝ) (h : ∀ x ∈ u, x = 0) : dotList u v = 0 := by
  induction u generalizing v with
  | nil => rfl
  | cons a w ih =>
    cases v with
    | nil => exact dotList_nil_right _
    | cons b v1 =>
      rw [dotList_cons]
      have ha : a = 0 := h a (List.mem_cons_self a w)
      have := ih v1 (fun x hx => h x (List.mem_cons_of_mem a hx))
      simp [ha, this]

theorem l2norm_nonneg (v : List ℝ) : 0 ≤ l2norm v := Real.sqrt_nonneg _

theorem l2norm_mul_self (v : List ℝ) : l2norm v * l2norm v = dotList v v :=
  Real.mul_self_sqrt (dotList_self_nonneg v)

theorem l2norm_eq_zero_iff (v : List ℝ) : l2norm v = 0 ↔ ∀ x ∈ v, x = 0 := by
  rw [l2norm, Real.sqrt_eq_zero (dotList_self_nonneg v), dotList_self_eq_zero_iff]

/-- Cauchy-Schwarz for list dot products. -/
theorem dotList_le_norm (u v : List ℝ) : dotList u v ≤ l2norm u * l2norm v := by
  set n := max u.length v.length with hn
  have hu : min u.length u.length ≤ n := by omega
  have hv : min v.length v.length ≤ n := by omega
  have huv : min u.length v.length ≤ n := by omega
  rw [dotList_eq_sum u v n huv, l2norm, l2norm,
    dotList_eq_sum u u n hu, dotList_eq_sum v v n hv]
  have := Real.sum_mul_le_sqrt_mul_sqrt (Finset.range n)
    (fun i => u.getD i 0) (fun i => v.getD i 0)
  simpa [pow_two] using this

theorem getD_sq_le_dotList_self (v : List ℝ) (i : ℕ) (hi : i < v.length) :
    v.getD i 0 * v.getD i 0 ≤ dotList v v := by
  rw [dotList_eq_sum v v v.length (by omega)]
  have hmem : i ∈ Finset.range v.length := Finset.mem_range.mpr hi
  exact Finset.single_le_sum (fun j _ => mul_self_nonneg (v.getD j 0)) hmem

theorem dotList_self_pos (v : List ℝ) (i : ℕ) (hi : i < v.length)
    (h : 0 < v.getD i 0) : 0 < dotList v v :=
  lt_of_lt_of_le (mul_pos h h) (getD_sq_le_dotList_self v i hi)

theorem dotList_map_div (u v : List ℝ) (a b : ℝ) :
    dotList (u.map (fun x => x / a)) (v.map (fun x => x / b)) = dotList u v / (a * b) := by
  induction u generalizing v with
  | nil => simp [dotList]
  | cons x u1 ih =>
    cases v with
    | nil => simp [dotList]
    | cons y v1 =>
      simp only [List.map_cons, dotList_cons, ih v1]
      rw [div_mul_div_comm, div_add_div_same]

theorem l2norm_map_div_self (v : List ℝ) (h : l2norm v ≠ 0) :
    l2norm (v.map (fun x => x / l2norm v)) = 1 := by
  have hdot : dotList (v.map (fun x => x / l2norm v)) (v.map (fun x => x / l2norm v)) = 1 := by
    rw [dotList_map_div, l2norm_mul_self, div_self]
    intro h0
    exact h (by rw [l2norm, h0, Real.sqrt_zero])
  rw [l2norm, hdot, Real.sqrt_one]

theorem l2norm_l2normalize (v : List ℝ) :
    l2norm (l2normalize v) = 0 ∨ l2norm (l2normalize v) = 1 := by
  by_cases h : l2norm v = 0
  · left; rw [l2normalize, if_pos h]; exact h
  · right; rw [l2normalize, if_neg h]; exact l2norm_map_div_self v h

theorem l2normalize_idem (v : List ℝ) : l2normalize (l2normalize v) = l2normalize v := by
  by_cases h : l2norm v = 0
  · have hv0 : l2normalize v = v := by rw [l2normalize, if_pos h]
    rw [hv0, hv0]
  · have hv : l2normalize v = v.map (fun x => x / l2norm v) := by rw [l2normalize, if_neg h]
    have h1 : l2norm (l2normalize v) = 1 := by rw [hv]; exact l2norm_map_div_self v h
    rw [l2normalize, if_neg (by rw [h1]; exact one_ne_zero), h1]
    simp

theorem cosine_sim_normalize (a b : List ℝ) :
    cosine_sim (l2normalize a) (l2normalize b) = cosine_sim a b := by
  rw [cosine_sim, cosine_sim, l2normalize_idem, l2normalize_idem]

theorem cosine_sim_self (v : List ℝ) (h : dotList v v ≠ 0) : cosine_sim v v = 1 := by
  have hn : l2norm v ≠ 0 := by
    intro h0
    exact h (by rw [← l2norm_mul_self, h0, mul_zero])
  rw [cosine_sim, l2normalize, if_neg hn, dotList_map_div, l2norm_mul_self, div_self h]

theorem cosine_sim_zero_left (q r : List ℝ) (h : l2norm q = 0) : cosine_sim q r = 0 := by
  have hq0 : l2normalize q = q := by rw [l2normalize, if_pos h]
  rw [cosine_sim, hq0]
  exact dotList_zero_left _ _ ((l2norm_eq_zero_iff q).mp h)

theorem cosine_sim_zero_right (q r : List ℝ) (h : l2norm r = 0) : cosine_sim q r = 0 := by
  have hr0 : l2normalize r = r := by rw [l2normalize, if_pos h]
  rw [cosine_sim, hr0]
  exact dotList_zero_right _ _ ((l2norm_eq_zero_iff r).mp h)

theorem cosine_sim_le_one (q r : List ℝ) : cosine_sim q r ≤ 1 := by
  have h := dotList_le_norm (l2normalize q) (l2normalize r)
  rw [cosine_sim]
  rcases l2norm_l2normalize q with hq | hq <;> rcases l2norm_l2normalize r with hr | hr <;>
    rw [hq, hr] at h <;> simpa using h.trans (by norm_num)

theorem l2normalize_nonneg (v : List ℝ) (h : ∀ x ∈ v, 0 ≤ x) :
    ∀ x ∈ l2normalize v, 0 ≤ x := by
  rw [l2normalize]
  by_cases h0 : l2norm v = 0
  · rw [if_pos h0]; exact h
  · rw [if_neg h0]
    intro x hx
    rcases List.mem_map.mp hx with ⟨y, hy, rfl⟩
    exact div_nonneg (h y hy) (l2norm_nonneg v)

theorem cosine_sim_nonneg (q r : List ℝ) (hq : ∀ x ∈ q, 0 ≤ x) (hr : ∀ x ∈ r, 0 ≤ x) :
    0 ≤ cosine_sim q r :=
  dotList_nonneg _ _ (l2normalize_nonneg q hq) (l2normalize_nonneg r hr)

theorem cosine_sim_eq_div (q r : List ℝ) (hq : l2norm q ≠ 0) (hr : l2norm r ≠ 0) :
    cosine_sim q r = dotList q r / (l2norm q * l2norm r) := by
  rw [cosine_sim, l2normalize, if_neg hq, l2normalize, if_neg hr, dotList_map_div]

theorem dotList_set_zero (u v : List ℝ) (i : ℕ) (hv : v.getD i 0 = 0) :
    dotList (u.set i 0) v = dotList u v := by
  induction u generalizing v i with
  | nil => simp
  | cons a u1 ih =>
    cases v with
    | nil => rw [dotList_nil_right, dotList_nil_right]
    | cons b v1 =>
      cases i with
      | zero =>
        have hb : b = 0 := by simpa [List.getD] using hv
        simp [List.set, dotList_cons, hb]
      | succ m =>
        have hm : v1.getD m 0 = 0 := by simpa [List.getD] using hv
        simp [List.set, dotList_cons, ih v1 m hm]

theorem dotList_set_self (u : List ℝ) (i : ℕ) (hi : i < u.length) :
    dotList (u.set i 0) (u.set i 0) = dotList u u - u.getD i 0 * u.getD i 0 := by
  induction u generalizing i with
  | nil => simp at hi
  | cons a u1 ih =>
    cases i with
    | zero => simp [List.set, dotList_cons, List.getD]
    | succ m =>
      have hm : m < u1.length := by simpa using hi
      simp only [List.set, dotList_cons, ih m hm, List.getD_cons_succ]
      ring

/-- Strict Cauchy-Schwarz gap: when the query has a strictly positive
weight on a coordinate where the other vector is zero, the cosine
similarity stays strictly below 1. -/
theorem cosine_sim_lt_one (u v : List ℝ) (i : ℕ) (hi : i < u.length)
    (hu : 0 < u.getD i 0) (hv : v.getD i 0 = 0) : cosine_sim u v < 1 := by
  by_cases hr : l2norm v = 0
  · rw [cosine_sim_zero_right u v hr]; norm_num
  · have hdu : 0 < dotList u u := dotList_self_pos u i hi hu
    have hcu : 0 < l2norm u := Real.sqrt_pos.mpr hdu
    have hcv : 0 < l2norm v := lt_of_le_of_ne (l2norm_nonneg v) (Ne.symm hr)
    rw [cosine_sim_eq_div u v (ne_of_gt hcu) hr, div_lt_one (mul_pos hcu hcv)]
    have h1 : dotList u v = dotList (u.set i 0) v := (dotList_set_zero u v i hv).symm
    have h2 : dotList (u.set i 0) v ≤ l2norm (u.set i 0) * l2norm v :=
      dotList_le_norm _ _
    have h3 : l2norm (u.set i 0) < l2norm u := by
      rw [l2norm, l2norm]
      apply Real.sqrt_lt_sqrt (dotList_self_nonneg _)
      rw [dotList_set_self u i hi]
      have := mul_pos hu hu
      linarith
    calc dotList u v = dotList (u.set i 0) v := h1
      _ ≤ l2norm (u.set i 0) * l2norm v := h2
      _ < l2norm u * l2norm v := by
          exact mul_lt_mul_of_pos_right h3 hcv

/-! ### The stable argsort and the top-k slice -/

theorem mem_insertLe {α : Type} (le : α → α → Bool) (x a : α) (l : List α) :
    a ∈ insertLe le x l ↔ a = x ∨ a ∈ l := by
  induction l with
  | nil => simp [insertLe]
  | cons y ys ih =>
    rw [insertLe]
    by_cases h : le x y = true
    · rw [if_pos h]
      simp
    · rw [if_neg h]
      simp [ih]
      tauto

theorem insertLe_perm {α : Type} (le : α → α → Bool) (x : α) (l : List α) :
    (insertLe le x l).Perm (x :: l) := by
  induction l with
  | nil => simp [insertLe]
  | cons y ys ih =>
    rw [insertLe]
    by_cases h : le x y = true
    · rw [if_pos h]
    · rw [if_neg h]
      exact List.Perm.trans (List.Perm.cons y ih) (List.Perm.swap x y ys)

theorem isortBy_perm {α : Type} (le : α → α → Bool) (l : List α) :
    (isortBy le l).Perm l := by
  induction l with
  | nil => simp [isortBy]
  | cons a l1 ih =>
    have : isortBy le (a :: l1) = insertLe le a (isortBy le l1) := rfl
    rw [this]
    exact List.Perm.trans (insertLe_perm le a (isortBy le l1)) (List.Perm.cons a ih)

theorem argsortAsc_perm (s : List ℝ) : (argsortAsc s).Perm (List.range s.length) :=
  isortBy_perm (simLeB s) (List.range s.length)

theorem length_argsortAsc (s : List ℝ) : (argsortAsc s).length = s.length := by
  rw [(argsortAsc_perm s).length_eq, List.length_range]

theorem mem_argsortAsc (s : List ℝ) (i : ℕ) : i ∈ argsortAsc s ↔ i < s.length := by
  rw [(argsortAsc_perm s).mem_iff, List.mem_range]

/-- The exact order the reversed stable ascending argsort produces:
`i` precedes `j` when `i`'s score is smaller, or the scores tie and `i`
is the earlier corpus row. -/
def idxLt (s : List ℝ) (i j : ℕ) : Prop :=
  s.getD i 0 < s.getD j 0 ∨ (s.getD i 0 = s.getD j 0 ∧ i < j)

theorem simLeB_true_iff (s : List ℝ) (i j : ℕ) :
    simLeB s i j = true ↔ s.getD i 0 ≤ s.getD j 0 := by
  simp [simLeB]

theorem insertLe_pairwise_idxLt (s : List ℝ) (i : ℕ) (l : List ℕ)
    (hl : l.Pairwise (idxLt s)) (hall : ∀ j ∈ l, i < j) :
    (insertLe (simLeB s) i l).Pairwise (idxLt s) := by
  induction l with
  | nil => simp [insertLe]
  | cons y ys ih =>
    rw [insertLe]
    by_cases h : simLeB s i y = true
    · rw [if_pos h]
      have hiy : s.getD i 0 ≤ s.getD y 0 := (simLeB_true_iff s i y).mp h
      refine List.Pairwise.cons ?_ hl
      intro z hz
      rcases List.mem_cons.mp hz with rfl | hzys
      · rcases lt_or_eq_of_le hiy with hlt | heq
        · exact Or.inl hlt
        · exact Or.inr ⟨heq, hall z (List.mem_cons_self z ys)⟩
      · have hyz : idxLt s y z := (List.pairwise_cons.mp hl).1 z hzys
        rcases hyz with h1 | ⟨h1, _⟩
        · exact Or.inl (lt_of_le_of_lt hiy h1)
        · rcases lt_or_eq_of_le hiy with hlt | heq
          · exact Or.inl (hlt.trans_eq h1)
          · exact Or.inr ⟨heq.trans h1, hall z (List.mem_cons_of_mem y hzys)⟩
    · rw [if_neg h]
      have hyi : s.getD y 0 < s.getD i 0 := by
        have hne : ¬ s.getD i 0 ≤ s.getD y 0 := fun hc => h ((simLeB_true_iff s i y).mpr hc)
        exact lt_of_not_le hne
      have hys : ys.Pairwise (idxLt s) := (List.pairwise_cons.mp hl).2
      have hrec := ih hys (fun j hj => hall j (List.mem_cons_of_mem y hj))
      refine List.Pairwise.cons ?_ hrec
      intro z hz
      rcases (mem_insertLe (simLeB s) i z ys).mp hz with rfl | hzys
      · exact Or.inl hyi
      · exact (List.pairwise_cons.mp hl).1 z hzys

theorem foldr_insert_pairwise (s : List ℝ) (L : List ℕ) (hL : L.Pairwise (Nat.lt)) :
    (L.foldr (insertLe (simLeB s)) []).Pairwise (idxLt s) := by
  induction L with
  | nil => simp
  | cons a L1 ih =>
    simp only [List.foldr_cons]
    have hp := List.pairwise_cons.mp hL
    apply insertLe_pairwise_idxLt s a _ (ih hp.2)
    intro j hj
    have hj1 : j ∈ L1 := (isortBy_perm (simLeB s) L1).mem_iff.mp hj
    exact hp.1 j hj1

theorem argsortAsc_pairwise (s : List ℝ) : (argsortAsc s).Pairwise (idxLt s) := by
  apply foldr_insert_pairwise
  exact List.pairwise_lt_range s.length

theorem topKIndices_length (s : List ℝ) (k : ℕ) :
    (topKIndices s k).length = min k s.length := by
  rw [topKIndices]
  simp [length_argsortAsc]
  omega

theorem mem_topKIndices (s : List ℝ) (k i : ℕ) (h : i ∈ topKIndices s k) :
    i < s.length := by
  rw [topKIndices, List.mem_reverse] at h
  exact (mem_argsortAsc s i).mp (List.mem_of_mem_drop h)

theorem topKIndices_sorted (s : List ℝ) (k : ℕ) :
    (topKIndices s k).Pairwise (fun i j => idxLt s j i) := by
  rw [topKIndices, List.pairwise_reverse]
  exact ((argsortAsc_pairwise s).sublist (List.drop_sublist _ _))

theorem topKIndices_maximal (s : List ℝ) (k i : ℕ) (hi : i < s.length)
    (hni : i ∉ topKIndices s k) :
    ∀ j ∈ topKIndices s k, s.getD i 0 ≤ s.getD j 0 := by
  intro j hj
  have hmem : i ∈ argsortAsc s := (mem_argsortAsc s i).mpr hi
  have hsplit := List.take_append_drop ((argsortAsc s).length - k) (argsortAsc s)
  have hpw : ((argsortAsc s).take ((argsortAsc s).length - k) ++
      (argsortAsc s).drop ((argsortAsc s).length - k)).Pairwise (idxLt s) := by
    rw [hsplit]
    exact argsortAsc_pairwise s
  have hrel := (List.pairwise_append.mp hpw).2.2
  have hidrop : i ∉ (argsortAsc s).drop ((argsortAsc s).length - k) := by
    intro hcon
    exact hni (by rw [topKIndices, List.mem_reverse]; exact hcon)
  have hitake : i ∈ (argsortAsc s).take ((argsortAsc s).length - k) := by
    rcases List.mem_append.mp (by rw [hsplit]; exact hmem) with h1 | h2
    · exact h1
    · exact absurd h2 hidrop
  have hjdrop : j ∈ (argsortAsc s).drop ((argsortAsc s).length - k) := by
    rw [topKIndices, List.mem_reverse] at hj
    exact hj
  rcases hrel i hitake j hjdrop with h1 | ⟨h1, _⟩
  · exact le_of_lt h1
  · exact le_of_eq h1

/-! ### Ordering facts about the frequency-based feature selection -/

theorem l2normalize_length (v : List ℝ) : (l2normalize v).length = v.length := by
  rw [l2normalize]
  by_cases h : l2norm v = 0
  · rw [if_pos h]
  · rw [if_neg h, List.length_map]

theorem tfidf_transform_length (sp : TfidfSpace) (doc : String) :
    (tfidf_transform sp doc).length = sp.vocab.length := by
  rw [tfidf_transform, l2normalize_length, transform_raw, List.length_map]

theorem similarity_scores_length (source destination : String) (rs : List StoredRoute) :
    (similarity_scores source destination rs).length = (readableRoutes rs).length := by
  rw [similarity_scores]
  simp [score_all]

theorem readableRoutes_eq_nil_iff (rs : List StoredRoute) :
    readableRoutes rs = [] ↔ ∀ r ∈ rs, r.embedding = none := by
  rw [readableRoutes, List.filterMap_eq_nil_iff]
  constructor
  · intro h r hr
    simpa using h r hr
  · intro h r hr
    simp [h r hr]

theorem mem_readableRoutes (rs : List StoredRoute) (p : RouteInfo × List ℝ)
    (h : p ∈ readableRoutes rs) :
    ∃ r ∈ rs, r.embedding = some p.2 ∧ p.1 = mkInfo r := by
  rw [readableRoutes] at h
  rcases List.mem_filterMap.mp h with ⟨r, hr, hmap⟩
  rcases Option.map_eq_some'.mp hmap with ⟨e, he, hpe⟩
  subst hpe
  exact ⟨r, hr, he, rfl⟩

theorem get_similar_routes_ok_eq (source destination : String) (k : ℕ)
    (rs : List StoredRoute) (h1 : rs ≠ []) (h2 : readableRoutes rs ≠ []) :
    get_similar_routes source destination k rs = .ok
      ((topKIndices (similarity_scores source destination rs) k).map
        (resultAt (readableRoutes rs) (similarity_scores source destination rs))) := by
  have hA : ¬(rs.isEmpty = true) := by simpa using h1
  have hB : ¬((readableRoutes rs).isEmpty = true) := by simpa using h2
  rw [get_similar_routes, if_neg hA, if_neg hB]

theorem get_similar_routes_ok_inv (source destination : String) (k : ℕ)
    (rs : List StoredRoute) (res : List ResultRec)
    (h : get_similar_routes source destination k rs = .ok res) :
    rs ≠ [] ∧ readableRoutes rs ≠ [] ∧
      res = (topKIndices (similarity_scores source destination rs) k).map
        (resultAt (readableRoutes rs) (similarity_scores source destination rs)) := by
  by_cases h1 : rs = []
  · subst h1
    rw [get_similar_routes] at h
    simp at h
  · by_cases h2 : readableRoutes rs = []
    · have hA : ¬(rs.isEmpty = true) := by simpa using h1
      rw [get_similar_routes, if_neg hA, if_pos (by simpa using h2)] at h
      simp at h
    · rw [get_similar_routes_ok_eq source destination k rs h1 h2] at h
      refine ⟨h1, h2, ?_⟩
      injection h with h3
      exact h3.symm

/-- C3.  `get_similar_routes` answers with a 404 "not found" error exactly
when the fetched corpus is empty or every stored fingerprint fails to
deserialise; and the scoring covers exactly the readable records (one
score per surviving row). -/
theorem similar_routes_not_found_iff (source destination : String) (k : ℕ)
    (rs : List StoredRoute) :
    ((∃ msg, get_similar_routes source destination k rs = .error (.notFound msg)) ↔
      (rs = [] ∨ ∀ r ∈ rs, r.embedding = none)) ∧
    (similarity_scores source destination rs).length = (readableRoutes rs).length := by
  refine ⟨?_, similarity_scores_length source destination rs⟩
  by_cases h1 : rs = []
  · subst h1
    constructor
    · intro _
      exact Or.inl rfl
    · intro _
      exact ⟨"No routes with embeddings found", rfl⟩
  · by_cases h2 : readableRoutes rs = []
    · constructor
      · intro _
        exact Or.inr ((readableRoutes_eq_nil_iff rs).mp h2)
      · intro _
        refine ⟨"No valid embeddings found", ?_⟩
        have hA : ¬(rs.isEmpty = true) := by simpa using h1
        rw [get_similar_routes, if_neg hA, if_pos (by simpa using h2)]
    · rw [get_similar_routes_ok_eq source destination k rs h1 h2]
      constructor
      · intro hmsg
        rcases hmsg with ⟨msg, hmsg⟩
        exact absurd hmsg (by simp)
      · intro hor
        rcases hor with hc | hall
        · exact absurd hc h1
        · exact absurd ((readableRoutes_eq_nil_iff rs).mpr hall) h2

/-- C6.  For a positive `top_k` the endpoint returns `min top_k n` results
where `n` is the number of readable corpus rows: never more than `top_k`,
and all available rows when `top_k` exceeds the corpus size. -/
theorem similar_routes_result_length (source destination : String) (k : ℕ)
    (rs : List StoredRoute) (res : List ResultRec) (_hk : 0 < k)
    (h : get_similar_routes source destination k rs = .ok res) :
    res.length = min k (readableRoutes rs).length := by
  rcases get_similar_routes_ok_inv source destination k rs res h with ⟨-, -, hres⟩
  rw [hres, List.length_map, topKIndices_length, similarity_scores_length]

/-- C9.  Every emitted record copies `route_text`, `source` and `dest`
from a stored route that had a readable fingerprint; its `airline` field
is the stored airline, defaulted to the literal `"Unknown"` when the
stored document has no airline value. -/
theorem similar_routes_record_fields (source destination : String) (k : ℕ)
    (rs : List StoredRoute) (res : List ResultRec)
    (h : get_similar_routes source destination k rs = .ok res) :
    ∀ out ∈ res, ∃ r ∈ rs, r.embedding ≠ none ∧
      out.route_text = r.route_text ∧ out.source = r.source ∧ out.dest = r.dest ∧
      out.airline = r.airline.getD "Unknown" := by
  intro out hout
  rcases get_similar_routes_ok_inv source destination k rs res h with ⟨-, -, hres⟩
  rw [hres] at hout
  rcases List.mem_map.mp hout with ⟨i, hi, rfl⟩
  have hil : i < (similarity_scores source destination rs).length :=
    mem_topKIndices _ _ _ hi
  have hil2 : i < (readableRoutes rs).length := by
    rw [similarity_scores_length] at hil
    exact hil
  have hmem : (readableRoutes rs).getD i default ∈ readableRoutes rs := by
    rw [List.getD_eq_getElem _ _ hil2]
    exact List.getElem_mem _
  rcases mem_readableRoutes rs _ hmem with ⟨r, hr, hemb, hinfo⟩
  refine ⟨r, hr, by simp [hemb], ?_, ?_, ?_, ?_⟩ <;>
    simp only [resultAt, hinfo, mkInfo]

/-- C10.  The direct-route lookup truncates at 100: it returns exactly the
first 100 stored routes matching both uppercased codes, a prefix of the
full match set, so matches beyond the first 100 are dropped. -/
theorem direct_routes_first_100 (source destination : String) (db : List StoredRoute) :
    get_direct_routes source destination db =
      (matching_routes source destination db).take 100 ∧
    (get_direct_routes source destination db).length =
      min 100 (matching_routes source destination db).length ∧
    (get_direct_routes source destination db).Sublist
      (matching_routes source destination db) := by
  refine ⟨rfl, ?_, ?_⟩
  · rw [get_direct_routes, matching_routes, List.length_take]
  · exact List.take_sublist _ _

/-! ### Determinism and feature-selection tie order (C8) -/

theorem char_toNat_ofNat (n : ℕ) (h : n < 55296) : (Char.ofNat n).toNat = n := by
  rw [Char.ofNat, dif_pos (Or.inl h)]
  rfl

theorem char_toUpper_eq (c : Char) :
    Char.toUpper c =
      if c.toNat ≥ 97 ∧ c.toNat ≤ 122 then Char.ofNat (c.toNat - 32) else c := rfl

theorem char_toUpper_toUpper (c : Char) :
    Char.toUpper (Char.toUpper c) = Char.toUpper c := by
  by_cases h : c.toNat ≥ 97 ∧ c.toNat ≤ 122
  · have h1 : Char.toUpper c = Char.ofNat (c.toNat - 32) := by
      rw [char_toUpper_eq, if_pos h]
    have h2 : (Char.ofNat (c.toNat - 32)).toNat = c.toNat - 32 :=
      char_toNat_ofNat _ (by omega)
    rw [h1, char_toUpper_eq, if_neg (by rw [h2]; omega)]
  · have h1 : Char.toUpper c = c := by rw [char_toUpper_eq, if_neg h]
    rw [h1, h1]

theorem pyUpper_idem (s : String) : pyUpper (pyUpper s) = pyUpper s := by
  show String.mk ((s.data.map Char.toUpper).map Char.toUpper) =
    String.mk (s.data.map Char.toUpper)
  rw [List.map_map]
  congr 1
  apply List.map_congr_left
  intro c _
  exact char_toUpper_toUpper c

theorem similarity_scores_upper (source destination : String) (rs : List StoredRoute) :
    similarity_scores (pyUpper source) (pyUpper destination) rs =
      similarity_scores source destination rs := by
  rw [similarity_scores, similarity_scores, pyUpper_idem, pyUpper_idem]

/-- C7.  The endpoint uppercases both codes before building the query
string, so feeding it already-uppercased codes changes nothing: the
lowercase and uppercase spellings of the same codes yield identical
ordered results. -/
theorem similar_routes_case_insensitive (source destination : String) (k : ℕ)
    (rs : List StoredRoute) :
    get_similar_routes (pyUpper source) (pyUpper destination) k rs =
      get_similar_routes source destination k rs := by
  rw [get_similar_routes, get_similar_routes, similarity_scores_upper]

/-! ### Bounds on the similarity scores (C4) -/

/-- C4 counterexample: `score_all` on a query/matrix pair with a negative
entry returns a score outside `[0, 1]` — the all-scores-in-`[0,1]`
guarantee needs the vectors to be entrywise non-negative. -/
theorem score_all_out_of_range :
    score_all [(1 : ℝ)] [[-1]] = [-1] ∧ ((-1 : ℝ) < 0) := by
  refine ⟨?_, by norm_num⟩
  have h1 : dotList [(1 : ℝ)] [(1 : ℝ)] = 1 := by norm_num [dotList]
  have h2 : dotList [(-1 : ℝ)] [(-1 : ℝ)] = 1 := by norm_num [dotList]
  have hn1 : l2norm [(1 : ℝ)] = 1 := by rw [l2norm, h1, Real.sqrt_one]
  have hn2 : l2norm [(-1 : ℝ)] = 1 := by rw [l2norm, h2, Real.sqrt_one]
  have hc : cosine_sim [(1 : ℝ)] [(-1 : ℝ)] = -1 := by
    rw [cosine_sim_eq_div _ _ (by rw [hn1]; norm_num) (by rw [hn2]; norm_num),
      hn1, hn2]
    norm_num [dotList]
  rw [score_all, List.map_cons, List.map_nil, hc]

/-- C4 amended.  `score_all` returns one score per row; for entrywise
non-negative query and rows every score lies in `[0, 1]`; and whenever
the query or a row has zero norm the corresponding similarity is exactly
0 (the normalising convention — no division by zero ever happens). -/
theorem score_all_bounds (q : List ℝ) (rows : List (List ℝ))
    (hq : ∀ x ∈ q, 0 ≤ x) (hrows : ∀ row ∈ rows, ∀ x ∈ row, 0 ≤ x) :
    (score_all q rows).length = rows.length ∧
    (∀ s ∈ score_all q rows, 0 ≤ s ∧ s ≤ 1) ∧
    (∀ row ∈ rows, (l2norm q = 0 ∨ l2norm row = 0) → cosine_sim q row = 0) := by
  refine ⟨by rw [score_all, List.length_map], ?_, ?_⟩
  · intro s hs
    rcases List.mem_map.mp hs with ⟨row, hrow, rfl⟩
    exact ⟨cosine_sim_nonneg q row hq (hrows row hrow), cosine_sim_le_one q row⟩
  · intro row _ hz
    rcases hz with h | h
    · exact cosine_sim_zero_left q row h
    · exact cosine_sim_zero_right q row h

/-- Witness for C4 (amended) at a concrete non-negative input. -/
theorem score_all_bounds_witness :
    (∀ x ∈ [(1 : ℝ)], 0 ≤ x) ∧
    ((score_all [(1 : ℝ)] [[1], [0]]).length = ([[(1 : ℝ)], [0]]).length ∧
      (∀ s ∈ score_all [(1 : ℝ)] [[1], [0]], 0 ≤ s ∧ s ≤ 1) ∧
      (∀ row ∈ [[(1 : ℝ)], [0]], (l2norm [(1 : ℝ)] = 0 ∨ l2norm row = 0) →
        cosine_sim [(1 : ℝ)] row = 0)) :=
  ⟨by simp, score_all_bounds [(1 : ℝ)] [[1], [0]] (by simp)
    (by intro row hrow x hx
        rcases List.mem_cons.mp hrow with rfl | hrow2
        · rcases List.mem_singleton.mp hx with rfl
          norm_num
        · rcases List.mem_singleton.mp (hrow2 : row ∈ [[(0 : ℝ)]]) with rfl
          rcases List.mem_singleton.mp hx with rfl
          norm_num)⟩

/-! ### Tie-breaking of the top-k selection (C1) -/

/-- A corpus with two duplicate routes (same route string, different
airlines), exactly the duplicates-across-airlines shape the source data
preserves.  Both stored fingerprints are the rows the ingestion pipeline
computes over this corpus, so they are identical and both rows tie
against any query. -/
def textsDup : List String := ["AAA-BBB", "AAA-BBB"]

def spDup : TfidfSpace := tfidf_fit textsDup

noncomputable def dupCorpus : List StoredRoute :=
  [⟨"AAA-BBB", "AAA", "BBB", some "X1", some (tfidf_transform spDup "AAA-BBB")⟩,
   ⟨"AAA-BBB", "AAA", "BBB", some "X2", some (tfidf_transform spDup "AAA-BBB")⟩]

/-- The stored fingerprints of `dupCorpus` are exactly the rows the
ingestion run (`fit_transform`) produces for these two route strings, so
the stored width equals the width of the space the request refits. -/
theorem dupCorpus_embeddings :
    dupCorpus.map (fun r => r.embedding) = (fit_transform textsDup).map some := rfl

theorem simLeB_false_iff (s : List ℝ) (i j : ℕ) :
    simLeB s i j = false ↔ s.getD j 0 < s.getD i 0 := by
  rw [← Bool.not_eq_true, simLeB_true_iff, not_le]

/-- The selection on two tied scores: the ascending stable argsort keeps
corpus order `[0, 1]` (numpy uses its stable insertion sort at this
size), and the final reversal emits row 1 before row 0. -/
theorem topKIndices_two_tied (s : List ℝ) (h : s.length = 2)
    (heq : s.getD 0 0 = s.getD 1 0) : topKIndices s 2 = [1, 0] := by
  have hb : simLeB s 0 1 = true := (simLeB_true_iff s 0 1).mpr (le_of_eq heq)
  have hfold : argsortAsc s = [0, 1] := by
    rw [argsortAsc, h]
    show insertLe (simLeB s) 0 (insertLe (simLeB s) 1 []) = [0, 1]
    have e1 : insertLe (simLeB s) 1 ([] : List ℕ) = [1] := rfl
    rw [e1, insertLe, if_pos hb]
  rw [topKIndices, hfold]
  rfl

theorem readableRoutes_dup :
    readableRoutes dupCorpus =
      [(⟨"AAA-BBB", "AAA", "BBB", "X1"⟩, tfidf_transform spDup "AAA-BBB"),
       (⟨"AAA-BBB", "AAA", "BBB", "X2"⟩, tfidf_transform spDup "AAA-BBB")] := rfl

/-- The request refit over the duplicate corpus reproduces `spDup`, the
query string is `"AAA-BBB"`, and both rows receive the same score (the
query vector against the same stored vector, twice). -/
theorem similarity_scores_dup :
    similarity_scores "AAA" "BBB" dupCorpus =
      [cosine_sim (tfidf_transform spDup "AAA-BBB") (tfidf_transform spDup "AAA-BBB"),
       cosine_sim (tfidf_transform spDup "AAA-BBB") (tfidf_transform spDup "AAA-BBB")] := rfl

/-- C1 counterexample: on the duplicate-route corpus both rows tie, and
the endpoint emits the LATER corpus row (airline `"X2"`) first — not
corpus order, so ties are not broken as by a stable descending sort. -/
theorem similar_routes_tie_order_cex :
    (get_similar_routes "AAA" "BBB" 2 dupCorpus).map
      (fun res => res.map (fun out => out.airline)) =
    Except.ok ["X2", "X1"] := by
  have h1 : dupCorpus ≠ [] := by simp [dupCorpus]
  have h2 : readableRoutes dupCorpus ≠ [] := by
    rw [readableRoutes_dup]
    simp
  rw [get_similar_routes_ok_eq "AAA" "BBB" 2 dupCorpus h1 h2]
  have hlen : (similarity_scores "AAA" "BBB" dupCorpus).length = 2 := by
    rw [similarity_scores_dup]
    rfl
  have heq : (similarity_scores "AAA" "BBB" dupCorpus).getD 0 0 =
      (similarity_scores "AAA" "BBB" dupCorpus).getD 1 0 := by
    rw [similarity_scores_dup]
    rfl
  rw [topKIndices_two_tied _ hlen heq]
  rfl

theorem topKIndices_sorted_le (s : List ℝ) (k : ℕ) :
    (topKIndices s k).Pairwise (fun i j => s.getD j 0 ≤ s.getD i 0) :=
  (topKIndices_sorted s k).imp (fun h => by
    rcases h with h1 | ⟨h1, _⟩
    · exact le_of_lt h1
    · exact le_of_eq h1)

/-- C1 amended.  `get_similar_routes` returns the records at the indices
of the `top_k` highest scores in non-increasing score order: every
omitted row scores no higher than any returned one and exactly
`min top_k n` indices are selected.  For corpora small enough that
numpy's argsort is its stable insertion sort (at most 16 scored rows —
beyond that numpy's introsort tie order is implementation-defined), ties
are broken by REVERSE corpus order: among equal scores the row appearing
later in the corpus is emitted earlier. -/
theorem similar_routes_topk_ordering (source destination : String) (k : ℕ)
    (rs : List StoredRoute) (res : List ResultRec) (_hk : 0 < k)
    (h : get_similar_routes source destination k rs = .ok res) :
    res = (topKIndices (similarity_scores source destination rs) k).map
        (resultAt (readableRoutes rs) (similarity_scores source destination rs)) ∧
    (topKIndices (similarity_scores source destination rs) k).Pairwise
      (fun i j => (similarity_scores source destination rs).getD j 0 ≤
        (similarity_scores source destination rs).getD i 0) ∧
    (∀ i < (similarity_scores source destination rs).length,
      i ∉ topKIndices (similarity_scores source destination rs) k →
      ∀ j ∈ topKIndices (similarity_scores source destination rs) k,
        (similarity_scores source destination rs).getD i 0 ≤
          (similarity_scores source destination rs).getD j 0) ∧
    (topKIndices (similarity_scores source destination rs) k).length =
      min k (similarity_scores source destination rs).length ∧
    ((similarity_scores source destination rs).length ≤ 16 →
      (topKIndices (similarity_scores source destination rs) k).Pairwise
        (fun i j => idxLt (similarity_scores source destination rs) j i)) := by
  rcases get_similar_routes_ok_inv source destination k rs res h with ⟨-, -, hres⟩
  exact ⟨hres, topKIndices_sorted_le _ _,
    fun i hi hni => topKIndices_maximal _ _ i hi hni, topKIndices_length _ _,
    fun _ => topKIndices_sorted _ _⟩

/-- The concrete payload the endpoint returns on the duplicate corpus. -/
noncomputable def dupRes : List ResultRec :=
  (topKIndices (similarity_scores "AAA" "BBB" dupCorpus) 2).map
    (resultAt (readableRoutes dupCorpus) (similarity_scores "AAA" "BBB" dupCorpus))

/-- Witness for C1 (amended) at the concrete duplicate corpus (2 scored
rows, inside the stable regime). -/
theorem similar_routes_topk_ordering_witness :
    0 < 2 ∧ get_similar_routes "AAA" "BBB" 2 dupCorpus = .ok dupRes ∧
    dupRes = (topKIndices (similarity_scores "AAA" "BBB" dupCorpus) 2).map
      (resultAt (readableRoutes dupCorpus)
        (similarity_scores "AAA" "BBB" dupCorpus)) := by
  have h1 : dupCorpus ≠ [] := by simp [dupCorpus]
  have h2 : readableRoutes dupCorpus ≠ [] := by
    rw [readableRoutes_dup]
    simp
  have hok : get_similar_routes "AAA" "BBB" 2 dupCorpus = .ok dupRes :=
    get_similar_routes_ok_eq "AAA" "BBB" 2 dupCorpus h1 h2
  exact ⟨by norm_num, hok,
    (similar_routes_topk_ordering "AAA" "BBB" 2 dupCorpus dupRes (by norm_num) hok).1⟩

/-! ### Shape of the fingerprint matrix (C5) -/

theorem raw_vocab_nodup (docs : List String) : (raw_vocab docs).Nodup := by
  rw [raw_vocab]
  exact ((isortBy_perm strLeB _).nodup_iff).mpr (List.nodup_dedup _)

theorem select_vocab_le_max (docs : List String) :
    (select_vocab docs).length ≤ max_features := by
  rw [select_vocab]
  by_cases h : (raw_vocab docs).length ≤ max_features
  · rw [if_pos h]
    exact h
  · rw [if_neg h]
    have hnodup : ((raw_vocab docs).filter
        (fun f => (kept_features docs).contains f)).Nodup :=
      (raw_vocab_nodup docs).filter _
    have hsub : ((raw_vocab docs).filter
        (fun f => (kept_features docs).contains f)) ⊆ kept_features docs := by
      intro x hx
      have hmem := List.of_mem_filter hx
      simpa using hmem
    have hle := (hnodup.subperm hsub).length_le
    have hkept : (kept_features docs).length ≤ max_features := by
      rw [kept_features, List.length_map]
      exact List.length_take_le _ _
    omega

/-- C5.  For a non-empty corpus of `N` route strings the fingerprint
matrix has exactly `N` rows; every row has one column per selected
vocabulary feature, and at most 128 features are ever selected (fewer
when fewer distinct n-grams exist, without error). -/
theorem fingerprint_matrix_shape (docs : List String) (_h : docs ≠ []) :
    (fit_transform docs).length = docs.length ∧
    (∀ row ∈ fit_transform docs, row.length = (select_vocab docs).length) ∧
    (select_vocab docs).length ≤ max_features := by
  refine ⟨by rw [fit_transform, List.length_map], ?_, select_vocab_le_max docs⟩
  intro row hrow
  rcases List.mem_map.mp hrow with ⟨d, _, rfl⟩
  rw [tfidf_transform_length]
  rfl

/-- Witness for C5 at the three-route corpus of the spec. -/
theorem fingerprint_matrix_shape_witness :
    (["JFK-LAX", "LAX-JFK", "JFK-SFO"] : List String) ≠ [] ∧
    ((fit_transform ["JFK-LAX", "LAX-JFK", "JFK-SFO"]).length =
        (["JFK-LAX", "LAX-JFK", "JFK-SFO"] : List String).length ∧
      (∀ row ∈ fit_transform ["JFK-LAX", "LAX-JFK", "JFK-SFO"],
        row.length = (select_vocab ["JFK-LAX", "LAX-JFK", "JFK-SFO"]).length) ∧
      (select_vocab ["JFK-LAX", "LAX-JFK", "JFK-SFO"]).length ≤ max_features) :=
  ⟨by simp, fingerprint_matrix_shape ["JFK-LAX", "LAX-JFK", "JFK-SFO"] (by simp)⟩

/-! ### Witnesses for the result-length and record-shape theorems -/

/-- A single-route corpus whose stored fingerprint is the row the
ingestion run computes for it (so the stored width matches the refit
space and no dimension mismatch can arise). -/
def textsOne : List String := ["AAA-BBB"]

def spOne : TfidfSpace := tfidf_fit textsOne

noncomputable def oneCorpus : List StoredRoute :=
  [⟨"AAA-BBB", "AAA", "BBB", none, some (tfidf_transform spOne "AAA-BBB")⟩]

theorem oneCorpus_embeddings :
    oneCorpus.map (fun r => r.embedding) = (fit_transform textsOne).map some := rfl

theorem readableRoutes_one :
    readableRoutes oneCorpus =
      [(⟨"AAA-BBB", "AAA", "BBB", "Unknown"⟩, tfidf_transform spOne "AAA-BBB")] := rfl

/-- The concrete payload for the single-row corpus. -/
noncomputable def oneRes : List ResultRec :=
  (topKIndices (similarity_scores "AAA" "BBB" oneCorpus) 5).map
    (resultAt (readableRoutes oneCorpus) (similarity_scores "AAA" "BBB" oneCorpus))

/-- Witness for C6: `top_k = 5` against a single-row corpus returns
exactly `min 5 1 = 1` result. -/
theorem similar_routes_result_length_witness :
    0 < 5 ∧ get_similar_routes "AAA" "BBB" 5 oneCorpus = .ok oneRes ∧
    oneRes.length = min 5 (readableRoutes oneCorpus).length := by
  have hok : get_similar_routes "AAA" "BBB" 5 oneCorpus = .ok oneRes :=
    get_similar_routes_ok_eq "AAA" "BBB" 5 oneCorpus (by simp [oneCorpus])
      (by rw [readableRoutes_one]; simp)
  exact ⟨by norm_num, hok,
    similar_routes_result_length "AAA" "BBB" 5 oneCorpus oneRes (by norm_num) hok⟩

/-- Witness for C9 on the same single-row corpus (stored airline `none`). -/
theorem similar_routes_record_fields_witness :
    get_similar_routes "AAA" "BBB" 5 oneCorpus = .ok oneRes ∧
    (∀ out ∈ oneRes, ∃ r ∈ oneCorpus, r.embedding ≠ none ∧
      out.route_text = r.route_text ∧ out.source = r.source ∧ out.dest = r.dest ∧
      out.airline = r.airline.getD "Unknown") := by
  have hok : get_similar_routes "AAA" "BBB" 5 oneCorpus = .ok oneRes :=
    get_similar_routes_ok_eq "AAA" "BBB" 5 oneCorpus (by simp [oneCorpus])
      (by rw [readableRoutes_one]; simp)
  exact ⟨hok, similar_routes_record_fields "AAA" "BBB" 5 oneCorpus oneRes hok⟩

/-! ### The three-route scenario of the spec (C2) -/

def texts3 : List String := ["JFK-LAX", "LAX-JFK", "JFK-SFO"]

/-- The space both the ingestion run and the request-time refit produce
for this corpus. -/
def sp3 : TfidfSpace := tfidf_fit texts3

/-- The corpus as stored: each route carries the fingerprint the
ingestion pipeline computed for its `route_text` over this same corpus. -/
noncomputable def corpus3 : List StoredRoute :=
  [⟨"JFK-LAX", "JFK", "LAX", none, some (tfidf_transform sp3 "JFK-LAX")⟩,
   ⟨"LAX-JFK", "LAX", "JFK", none, some (tfidf_transform sp3 "LAX-JFK")⟩,
   ⟨"JFK-SFO", "JFK", "SFO", none, some (tfidf_transform sp3 "JFK-SFO")⟩]

/-- The stored fingerprints of `corpus3` are exactly the rows
`fit_transform` produces for the three route strings. -/
theorem corpus3_embeddings :
    corpus3.map (fun r => r.embedding) = (fit_transform texts3).map some := rfl

theorem idf_pos (n d : ℕ) (h : d ≤ n) : 0 < idf n d := by
  rw [idf]
  have hd : (0 : ℝ) < 1 + (d : ℝ) := by positivity
  have h1 : (1 : ℝ) + (d : ℝ) ≤ 1 + (n : ℝ) := by
    have : ((d : ℝ)) ≤ (n : ℝ) := Nat.cast_le.mpr h
    linarith
  have hge : (1 : ℝ) ≤ (1 + (n : ℝ)) / (1 + (d : ℝ)) := (one_le_div hd).mpr h1
  have := Real.log_nonneg hge
  linarith

theorem doc_freq_le (docs : List String) (f : String) :
    doc_freq docs f ≤ docs.length := List.length_filter_le _ _

theorem transform_raw_getD (sp : TfidfSpace) (doc : String) (i : ℕ)
    (h : i < sp.vocab.length) :
    (transform_raw sp doc).getD i 0 =
      ((analyze doc).count (sp.vocab.getD i "") : ℝ) *
        idf sp.ndocs (sp.df (sp.vocab.getD i "")) := by
  rw [transform_raw,
    List.getD_eq_getElem _ _ (by rw [List.length_map]; exact h),
    List.getElem_map, List.getD_eq_getElem _ _ h]

theorem transform_raw_length (sp : TfidfSpace) (doc : String) :
    (transform_raw sp doc).length = sp.vocab.length := by
  rw [transform_raw, List.length_map]

/-- Feature number 21 of the fitted vocabulary is the n-gram `"ax "`. -/
theorem vocab3_card : 21 < sp3.vocab.length := by decide

theorem query_ax_pos : 0 < (transform_raw sp3 "JFK-LAX").getD 21 0 := by
  rw [transform_raw_getD sp3 "JFK-LAX" 21 vocab3_card]
  have hcount : (analyze "JFK-LAX").count (sp3.vocab.getD 21 "") = 1 := by decide
  rw [hcount]
  have hdf : sp3.df (sp3.vocab.getD 21 "") ≤ sp3.ndocs :=
    doc_freq_le texts3 (sp3.vocab.getD 21 "")
  have hpos := idf_pos sp3.ndocs (sp3.df (sp3.vocab.getD 21 "")) hdf
  simpa using hpos

theorem row1_ax_zero : (transform_raw sp3 "LAX-JFK").getD 21 0 = 0 := by
  rw [transform_raw_getD sp3 "LAX-JFK" 21 vocab3_card]
  have hcount : (analyze "LAX-JFK").count (sp3.vocab.getD 21 "") = 0 := by decide
  rw [hcount]
  simp

theorem row2_ax_zero : (transform_raw sp3 "JFK-SFO").getD 21 0 = 0 := by
  rw [transform_raw_getD sp3 "JFK-SFO" 21 vocab3_card]
  have hcount : (analyze "JFK-SFO").count (sp3.vocab.getD 21 "") = 0 := by decide
  rw [hcount]
  simp

theorem query_dot_pos :
    0 < dotList (transform_raw sp3 "JFK-LAX") (transform_raw sp3 "JFK-LAX") :=
  dotList_self_pos _ 21 (by rw [transform_raw_length]; exact vocab3_card) query_ax_pos

/-- Identical route string, identical fingerprint: cosine similarity
exactly 1. -/
theorem cos_q_row0 :
    cosine_sim (tfidf_transform sp3 "JFK-LAX") (tfidf_transform sp3 "JFK-LAX") = 1 := by
  rw [tfidf_transform, cosine_sim_normalize]
  exact cosine_sim_self _ (ne_of_gt query_dot_pos)

theorem cos_q_row1 :
    cosine_sim (tfidf_transform sp3 "JFK-LAX") (tfidf_transform sp3 "LAX-JFK") < 1 := by
  rw [tfidf_transform, tfidf_transform, cosine_sim_normalize]
  exact cosine_sim_lt_one _ _ 21
    (by rw [transform_raw_length]; exact vocab3_card) query_ax_pos row1_ax_zero

theorem cos_q_row2 :
    cosine_sim (tfidf_transform sp3 "JFK-LAX") (tfidf_transform sp3 "JFK-SFO") < 1 := by
  rw [tfidf_transform, tfidf_transform, cosine_sim_normalize]
  exact cosine_sim_lt_one _ _ 21
    (by rw [transform_raw_length]; exact vocab3_card) query_ax_pos row2_ax_zero

/-- The request-time refit over the readable corpus gives back `sp3`, and
the query string rebuilt from the (uppercased) codes is `"JFK-LAX"`, so
the scores are the query row against the three stored rows. -/
theorem similarity_scores_corpus3 :
    similarity_scores "JFK" "LAX" corpus3 =
      [cosine_sim (tfidf_transform sp3 "JFK-LAX") (tfidf_transform sp3 "JFK-LAX"),
       cosine_sim (tfidf_transform sp3 "JFK-LAX") (tfidf_transform sp3 "LAX-JFK"),
       cosine_sim (tfidf_transform sp3 "JFK-LAX") (tfidf_transform sp3 "JFK-SFO")] := rfl

/-- The selection on three scores with a strict maximum at index 0: index
0 comes out first whatever the order of the other two. -/
theorem topKIndices_three_top (s : List ℝ) (h : s.length = 3)
    (h1 : s.getD 1 0 < s.getD 0 0) (h2 : s.getD 2 0 < s.getD 0 0) :
    topKIndices s 2 = [0, 2] ∨ topKIndices s 2 = [0, 1] := by
  have hb01 : simLeB s 0 1 = false := (simLeB_false_iff s 0 1).mpr h1
  have hb02 : simLeB s 0 2 = false := (simLeB_false_iff s 0 2).mpr h2
  by_cases hc : s.getD 1 0 ≤ s.getD 2 0
  · left
    have hb12 : simLeB s 1 2 = true := (simLeB_true_iff s 1 2).mpr hc
    have hfold : argsortAsc s = [1, 2, 0] := by
      rw [argsortAsc, h]
      show insertLe (simLeB s) 0 (insertLe (simLeB s) 1 (insertLe (simLeB s) 2 [])) =
        [1, 2, 0]
      have e2 : insertLe (simLeB s) 2 ([] : List ℕ) = [2] := rfl
      rw [e2, insertLe, if_pos hb12,
        insertLe, if_neg (by rw [hb01]; exact Bool.false_ne_true),
        insertLe, if_neg (by rw [hb02]; exact Bool.false_ne_true)]
      rfl
    rw [topKIndices, hfold]
    rfl
  · right
    have hb12 : simLeB s 1 2 = false := (simLeB_false_iff s 1 2).mpr (lt_of_not_le hc)
    have hfold : argsortAsc s = [2, 1, 0] := by
      rw [argsortAsc, h]
      show insertLe (simLeB s) 0 (insertLe (simLeB s) 1 (insertLe (simLeB s) 2 [])) =
        [2, 1, 0]
      have e2 : insertLe (simLeB s) 2 ([] : List ℕ) = [2] := rfl
      rw [e2, insertLe, if_neg (by rw [hb12]; exact Bool.false_ne_true)]
      have e1 : insertLe (simLeB s) 1 ([] : List ℕ) = [1] := rfl
      rw [e1, insertLe, if_neg (by rw [hb02]; exact Bool.false_ne_true),
        insertLe, if_neg (by rw [hb01]; exact Bool.false_ne_true)]
      rfl
    rw [topKIndices, hfold]
    rfl

/-- C2.  On the corpus `["JFK-LAX", "LAX-JFK", "JFK-SFO"]` (with the
fingerprints the ingestion run stored for it), `recommend("JFK", "LAX",
top_k=2)` returns exactly 2 results and the first is `"JFK-LAX"` with
similarity exactly 1. -/
theorem recommend_jfk_lax_top :
    (get_similar_routes "JFK" "LAX" 2 corpus3).map
      (fun res => (res.length, res.head?.map (fun out => (out.route_text, out.similarity)))) =
    Except.ok (2, some ("JFK-LAX", (1 : ℝ))) := by
  have hread : readableRoutes corpus3 =
      [(⟨"JFK-LAX", "JFK", "LAX", "Unknown"⟩, tfidf_transform sp3 "JFK-LAX"),
       (⟨"LAX-JFK", "LAX", "JFK", "Unknown"⟩, tfidf_transform sp3 "LAX-JFK"),
       (⟨"JFK-SFO", "JFK", "SFO", "Unknown"⟩, tfidf_transform sp3 "JFK-SFO")] := rfl
  have h1 : corpus3 ≠ [] := by simp [corpus3]
  have h2 : readableRoutes corpus3 ≠ [] := by rw [hread]; simp
  rw [get_similar_routes_ok_eq "JFK" "LAX" 2 corpus3 h1 h2]
  have hslen : (similarity_scores "JFK" "LAX" corpus3).length = 3 := by
    rw [similarity_scores_corpus3]
    rfl
  have hg0 : (similarity_scores "JFK" "LAX" corpus3).getD 0 0 = 1 := by
    rw [similarity_scores_corpus3]
    exact cos_q_row0
  have hg1 : (similarity_scores "JFK" "LAX" corpus3).getD 1 0 <
      (similarity_scores "JFK" "LAX" corpus3).getD 0 0 := by
    rw [similarity_scores_corpus3]
    exact lt_of_lt_of_eq cos_q_row1 cos_q_row0.symm
  have hg2 : (similarity_scores "JFK" "LAX" corpus3).getD 2 0 <
      (similarity_scores "JFK" "LAX" corpus3).getD 0 0 := by
    rw [similarity_scores_corpus3]
    exact lt_of_lt_of_eq cos_q_row2 cos_q_row0.symm
  rcases topKIndices_three_top _ hslen hg1 hg2 with htop | htop <;>
    rw [htop] <;>
    simp [Except.map, resultAt, hread, hg0] <;>
    exact hg0

end FlightRec
